import Mathlib

/-!
Shallow embedding of the wavevm assembler front end: the lexer
(src/reader.rs) and the instruction IR operand encodings
(src/instruction.rs).

Source text is modelled as a list of unicode scalar values (Rust
chars); every length is a UTF-8 byte length, exactly as Rust
measures `str::len` and `Chars::as_str().len()`.  Fallible
operations (the panicking match arm of `Reader::next`, the
assert-guarded selector constructors) return `Option`, with `none`
for the panic.
-/

namespace Wavevm

/-- Span is the opaque source-location tag attached to tokens and operands;
it is external to this core and carries no behavior, so it is modelled as
the unit type. -/
abbrev Span := Unit

/-- UTF-8 byte length of a character sequence, as Rust `str::len` measures
a string. -/
def utf8Len (cs : List Char) : Nat := (cs.map Char.utf8Size).sum

/-- Rust `char::is_whitespace`: the Unicode White_Space property
(U+0009..U+000D, U+0020, U+0085, U+00A0, U+1680, U+2000..U+200A, U+2028,
U+2029, U+202F, U+205F, U+3000). -/
def rust_is_whitespace (c : Char) : Bool :=
  c.toNat = 0x09 || c.toNat = 0x0A || c.toNat = 0x0B || c.toNat = 0x0C ||
  c.toNat = 0x0D || c.toNat = 0x20 || c.toNat = 0x85 || c.toNat = 0xA0 ||
  c.toNat = 0x1680 || (0x2000 ≤ c.toNat && c.toNat ≤ 0x200A) ||
  c.toNat = 0x2028 || c.toNat = 0x2029 || c.toNat = 0x202F ||
  c.toNat = 0x205F || c.toNat = 0x3000

/-- reader.rs `is_ident_start`: `matches!(c, 'a'..='z'|'A'..='Z'|'_')`,
written on scalar values (0x61..0x7A, 0x41..0x5A, 0x5F). -/
def is_ident_start (c : Char) : Bool :=
  (0x61 ≤ c.toNat && c.toNat ≤ 0x7A) || (0x41 ≤ c.toNat && c.toNat ≤ 0x5A) ||
  c.toNat = 0x5F

/-- reader.rs `is_ident_continue`: `matches!(c, 'a'..='z'|'A'..='Z'|'0'..='9'|'_')`. -/
def is_ident_continue (c : Char) : Bool :=
  (0x61 ≤ c.toNat && c.toNat ≤ 0x7A) || (0x41 ≤ c.toNat && c.toNat ≤ 0x5A) ||
  (0x30 ≤ c.toNat && c.toNat ≤ 0x39) || c.toNat = 0x5F

/-- Rust `char::is_ascii_digit`: `'0'..='9'` (0x30..0x39). -/
def is_ascii_digit (c : Char) : Bool := 0x30 ≤ c.toNat && c.toNat ≤ 0x39

/-- reader.rs `TokenKind`. -/
inductive TokenKind where
  | EoF
  | Newline
  | Whitespace
  | Comment
  | Comma
  | Dot
  | LeftBracket
  | RightBracket
  | Plus
  | Ident
  | Number
deriving DecidableEq

/-- reader.rs `Token`: a kind plus the byte length of the consumed span. -/
structure Token where
  kind : TokenKind
  len : Nat
deriving DecidableEq

/-- reader.rs `Reader`: the characters remaining in the source, plus the
number of bytes that remained at the start of the current token. -/
structure Reader where
  chars : List Char
  len_at_start : Nat
deriving DecidableEq

/-- `Reader::new`. -/
def Reader.new (src : List Char) : Reader := ⟨src, utf8Len src⟩

/-- `Reader::eat_while`: advance while the predicate holds on the peeked
next character, stopping at end of input (the Rust loop peeks via
`chars.clone().next()` and guards with `!self.at_eof()`). -/
def eat_while (f : Char → Bool) (chars : List Char) : List Char :=
  chars.dropWhile f

/-- `Reader::comment`: eat through end of line (exclusive). -/
def comment (chars : List Char) : TokenKind × List Char :=
  (TokenKind.Comment, eat_while (fun c => c != '\n') chars)

/-- `Reader::eat_whitespace`: eat while whitespace other than newline. -/
def eat_whitespace (chars : List Char) : TokenKind × List Char :=
  (TokenKind.Whitespace, eat_while (fun c => c != '\n' && rust_is_whitespace c) chars)

/-- `Reader::ident`. -/
def ident (chars : List Char) : TokenKind × List Char :=
  (TokenKind.Ident, eat_while is_ident_continue chars)

/-- `Reader::number`. -/
def number (chars : List Char) : TokenKind × List Char :=
  (TokenKind.Number, eat_while is_ascii_digit chars)

/-- The `match start_c` of `Reader::next` (reader.rs lines 26-43): given the
first character and the characters after it, the token kind together with
the characters remaining after the arm runs; `none` models the panicking
catch-all arm. -/
def classify (start_c : Char) (rest : List Char) : Option (TokenKind × List Char) :=
  if start_c = '#' then some (comment rest)
  else if start_c = '\n' then some (TokenKind.Newline, rest)
  else if rust_is_whitespace start_c then some (eat_whitespace rest)
  else if is_ident_start start_c then some (ident rest)
  else if is_ascii_digit start_c then some (number rest)
  else if start_c = ',' then some (TokenKind.Comma, rest)
  else if start_c = '.' then some (TokenKind.Dot, rest)
  else if start_c = '[' then some (TokenKind.LeftBracket, rest)
  else if start_c = ']' then some (TokenKind.RightBracket, rest)
  else if start_c = '+' then some (TokenKind.Plus, rest)
  else none

/-- `Reader::next`: at end of input return `(EoF, 0)` and leave the reader
unchanged; otherwise run the matched arm, build the token with
`token_len = len_at_start - remaining byte length`, then `reset_len`.
`none` models the `panic!` of the catch-all arm. -/
def Reader.next (r : Reader) : Option (Token × Reader) :=
  match r.chars with
  | [] => some ({ kind := TokenKind.EoF, len := 0 }, r)
  | start_c :: rest =>
    match classify start_c rest with
    | none => none
    | some (kind, chars) =>
      some ({ kind := kind, len := r.len_at_start - utf8Len chars },
            { chars := chars, len_at_start := utf8Len chars })

/-- Result of lexing to completion: the token list ending with the first
EoF token, `fatal` when `Reader::next` hit the panicking arm, `outOfFuel`
when the step budget ran out. -/
inductive LexResult where
  | ok : List Token → LexResult
  | fatal : LexResult
  | outOfFuel : LexResult
deriving DecidableEq

/-- Call `Reader::next` repeatedly, at most `fuel` times, collecting tokens
up to and including the first EoF token. -/
def lexGo : Nat → Reader → LexResult
  | 0, _ => LexResult.outOfFuel
  | fuel + 1, r =>
    match r.next with
    | none => LexResult.fatal
    | some (tok, rr) =>
      if tok.kind = TokenKind.EoF then LexResult.ok [tok]
      else
        match lexGo fuel rr with
        | LexResult.ok ts => LexResult.ok (tok :: ts)
        | e => e

/-- Lex a whole source from a fresh reader; one call per character plus one
call for the final EoF is always enough fuel. -/
def lexAll (src : List Char) : LexResult := lexGo (src.length + 1) (Reader.new src)

/-- Result of the (n+1)-th call to `Reader::next` starting from `r`,
threading the mutated reader through the first `n` calls. -/
def runN : Reader → Nat → Option (Token × Reader)
  | r, 0 => r.next
  | r, n + 1 =>
    match r.next with
    | none => none
    | some (_, rr) => runN rr n

/-- instruction.rs `MAX_REG_IDX`: the maximum index per type of register. -/
def MAX_REG_IDX : Nat := 7

/-- instruction.rs `DATA_IDX_OFFSET`. -/
def DATA_IDX_OFFSET : Nat := 8

/-- instruction.rs `RegSelector`: a unified register index (a `u8`) plus a
span. -/
structure RegSelector where
  idx : Nat
  span : Span
deriving DecidableEq

/-- `RegSelector::new_const`; `none` models a failed `assert!(idx <= MAX_REG_IDX)`. -/
def RegSelector.new_const (idx : Nat) (span : Span) : Option RegSelector :=
  if idx ≤ MAX_REG_IDX then some ⟨idx, span⟩ else none

/-- `RegSelector::new_gpr`; `none` models a failed `assert!(idx <= MAX_REG_IDX)`. -/
def RegSelector.new_gpr (idx : Nat) (span : Span) : Option RegSelector :=
  if idx ≤ MAX_REG_IDX then some ⟨idx + DATA_IDX_OFFSET, span⟩ else none

/-- `RegSelector::is_const`. -/
def RegSelector.is_const (r : RegSelector) : Bool := r.idx ≤ MAX_REG_IDX

/-- `RegSelector::is_gpr`. -/
def RegSelector.is_gpr (r : RegSelector) : Bool :=
  MAX_REG_IDX < r.idx && r.idx ≤ DATA_IDX_OFFSET + MAX_REG_IDX

/-- The `fmt::Display` impl for `RegSelector`; `none` models the
`unreachable!` arm. -/
def RegSelector.display (r : RegSelector) : Option String :=
  if r.idx ≤ 7 then some ("c" ++ toString r.idx)
  else if r.idx ≤ 14 then some ("r" ++ toString (r.idx - DATA_IDX_OFFSET))
  else if r.idx = 15 then some "ri"
  else none

/-- instruction.rs `SetSelector`: a 4-bit component mask (a `u8`) plus a
span. -/
structure SetSelector where
  val : Nat
  span : Span
deriving DecidableEq

/-- `SetSelector::empty`. -/
def SetSelector.empty (span : Span) : SetSelector := ⟨0, span⟩

/-- `SetSelector::from_bits`; `none` models a failed `assert!(bits <= 0b1111)`. -/
def SetSelector.from_bits (bits : Nat) (span : Span) : Option SetSelector :=
  if bits ≤ 0b1111 then some ⟨bits, span⟩ else none

/-- `SetSelector::set`: sets bit `idx` and returns whether that bit was
already set; `none` models a failed `assert!(idx < 4)`. -/
def SetSelector.set (s : SetSelector) (idx : Nat) : Option (Bool × SetSelector) :=
  if idx < 4 then
    some ((s.val &&& (1 <<< idx)) != 0, ⟨s.val ||| (1 <<< idx), s.span⟩)
  else none

/-- `SetSelector::bits`. -/
def SetSelector.bits (s : SetSelector) : Nat := s.val

/-- `SetSelector::x`. -/
def SetSelector.x (s : SetSelector) : Bool := (s.val &&& 0b0001) != 0

/-- `SetSelector::y`. -/
def SetSelector.y (s : SetSelector) : Bool := (s.val &&& 0b0010) != 0

/-- `SetSelector::z`. -/
def SetSelector.z (s : SetSelector) : Bool := (s.val &&& 0b0100) != 0

/-- `SetSelector::w`. -/
def SetSelector.w (s : SetSelector) : Bool := (s.val &&& 0b1000) != 0

/-- instruction.rs `SwizzleSelector`: an ordered selector, 2 bits per output
slot, slot 0 in the low bits (a `u8`) plus a span. -/
structure SwizzleSelector where
  val : Nat
  span : Span
deriving DecidableEq

/-- `SwizzleSelector::empty`. -/
def SwizzleSelector.empty (span : Span) : SwizzleSelector := ⟨0, span⟩

/-- `SwizzleSelector::set`: clear the 2 bits at `(offset & 0b11) * 2`, then
write `selected & 0b11` there; the `u8` complement `!x` is `0xFF ^^^ x`. -/
def SwizzleSelector.set (s : SwizzleSelector) (offset selected : Nat) : SwizzleSelector :=
  let shift := (offset &&& 0b11) * 2
  ⟨(s.val &&& (0xFF ^^^ (0b11 <<< shift))) ||| ((selected &&& 0b11) <<< shift), s.span⟩

/-- `SwizzleSelector::bits`. -/
def SwizzleSelector.bits (s : SwizzleSelector) : Nat := s.val

/-- The `elem_name` closure of the `fmt::Debug` impl for `SwizzleSelector`. -/
def elem_name (idx : Nat) : Char :=
  match idx &&& 0b11 with
  | 0 => 'x'
  | 1 => 'y'
  | 2 => 'z'
  | _ => 'w'

/-- The 4-letter selector string written by the `fmt::Debug` impl for
`SwizzleSelector`. -/
def SwizzleSelector.decode (s : SwizzleSelector) : List Char :=
  [elem_name (s.val &&& 0b00000011),
   elem_name ((s.val &&& 0b00001100) >>> 2),
   elem_name ((s.val &&& 0b00110000) >>> 4),
   elem_name ((s.val &&& 0b11000000) >>> 6)]

/-- Reading of the 2-bit slot `i` (slot 0 in the low bits): the encoding
stated by the doc comment on `SwizzleSelector`. -/
def SwizzleSelector.slot (s : SwizzleSelector) (i : Nat) : Nat :=
  (s.val >>> (i * 2)) &&& 0b11

/-- instruction.rs `ShiftAmount`. The `INVARIANT: 0<= val <= 15` comment on
`Const` is not checked anywhere: the variant is a plain enum constructor. -/
inductive ShiftAmount where
  | Register : RegSelector → ShiftAmount
  | Const : Nat → Span → ShiftAmount
deriving DecidableEq

/-- The immediate stored in a `ShiftAmount::Const`, if any. -/
def ShiftAmount.constValue : ShiftAmount → Option Nat
  | ShiftAmount.Register _ => none
  | ShiftAmount.Const v _ => some v

set_option maxRecDepth 100000

/-- C4: for every logical index 0..7, the const selector has `idx == i`,
`is_const` and not `is_gpr`; the GPR selector has `idx == i + 8`, `is_gpr`
and not `is_const`; const selectors display as c0..c7, GPR selectors with
logical index 0..6 as r0..r6, and the GPR built from logical index 7
displays as "ri". -/
theorem reg_selector_index_space : ∀ i : Nat, i ≤ 7 →
    RegSelector.new_const i () = some ⟨i, ()⟩ ∧
    RegSelector.idx ⟨i, ()⟩ = i ∧
    RegSelector.is_const ⟨i, ()⟩ = true ∧
    RegSelector.is_gpr ⟨i, ()⟩ = false ∧
    RegSelector.new_gpr i () = some ⟨i + 8, ()⟩ ∧
    RegSelector.idx ⟨i + 8, ()⟩ = i + 8 ∧
    RegSelector.is_gpr ⟨i + 8, ()⟩ = true ∧
    RegSelector.is_const ⟨i + 8, ()⟩ = false ∧
    RegSelector.display ⟨i, ()⟩ = some ("c" ++ toString i) ∧
    (i ≤ 6 → RegSelector.display ⟨i + 8, ()⟩ = some ("r" ++ toString i)) ∧
    (i = 7 → RegSelector.display ⟨i + 8, ()⟩ = some "ri") := by
  decide

/-- Witness for C4 at the boundary logical index 7 (`c7` and `ri`). -/
theorem reg_selector_index_space_witness :
    RegSelector.new_const 7 () = some ⟨7, ()⟩ ∧
    RegSelector.idx ⟨7, ()⟩ = 7 ∧
    RegSelector.is_const ⟨7, ()⟩ = true ∧
    RegSelector.is_gpr ⟨7, ()⟩ = false ∧
    RegSelector.new_gpr 7 () = some ⟨7 + 8, ()⟩ ∧
    RegSelector.idx ⟨7 + 8, ()⟩ = 7 + 8 ∧
    RegSelector.is_gpr ⟨7 + 8, ()⟩ = true ∧
    RegSelector.is_const ⟨7 + 8, ()⟩ = false ∧
    RegSelector.display ⟨7, ()⟩ = some ("c" ++ toString 7) ∧
    (7 ≤ 6 → RegSelector.display ⟨7 + 8, ()⟩ = some ("r" ++ toString 7)) ∧
    (7 = 7 → RegSelector.display ⟨7 + 8, ()⟩ = some "ri") :=
  reg_selector_index_space 7 (by decide)

/-- C6: `ShiftAmount::Const` accepts every u8 value, including values above
15: the documented 0..=15 invariant is not checked at construction, and the
stored immediate reads back unchanged. -/
theorem shift_amount_const_unchecked : ∀ v : Nat, v ≤ 255 →
    (ShiftAmount.Const v ()).constValue = some v := by
  intro v _
  rfl

/-- Witness for C6 at the out-of-range immediate 255 (> 15). -/
theorem shift_amount_const_unchecked_witness :
    (255 : Nat) ≤ 255 ∧ 15 < (255 : Nat) ∧
    (ShiftAmount.Const 255 ()).constValue = some 255 :=
  ⟨by decide, by decide, shift_amount_const_unchecked 255 (by decide)⟩

/-- C7: for every 4-bit mask, `from_bits` succeeds and `bits` returns the
mask unchanged, and each of `x`, `y`, `z`, `w` reflects bit 0, 1, 2, 3. -/
theorem set_selector_from_bits_round_trip : ∀ m : Nat, m ≤ 0b1111 →
    SetSelector.from_bits m () = some ⟨m, ()⟩ ∧
    SetSelector.bits ⟨m, ()⟩ = m ∧
    SetSelector.x ⟨m, ()⟩ = m.testBit 0 ∧
    SetSelector.y ⟨m, ()⟩ = m.testBit 1 ∧
    SetSelector.z ⟨m, ()⟩ = m.testBit 2 ∧
    SetSelector.w ⟨m, ()⟩ = m.testBit 3 := by
  decide

/-- Witness for C7 at the mask 0b1010 (y and w set). -/
theorem set_selector_from_bits_round_trip_witness :
    SetSelector.from_bits 0b1010 () = some ⟨0b1010, ()⟩ ∧
    SetSelector.bits ⟨0b1010, ()⟩ = 0b1010 ∧
    SetSelector.x ⟨0b1010, ()⟩ = (0b1010 : Nat).testBit 0 ∧
    SetSelector.y ⟨0b1010, ()⟩ = (0b1010 : Nat).testBit 1 ∧
    SetSelector.z ⟨0b1010, ()⟩ = (0b1010 : Nat).testBit 2 ∧
    SetSelector.w ⟨0b1010, ()⟩ = (0b1010 : Nat).testBit 3 :=
  set_selector_from_bits_round_trip 0b1010 (by decide)

/-- C8: for every selector state and index i < 4, `set(i)` returns whether
bit i was already set and leaves bit i set; a second `set(i)` on the result
returns true and changes nothing, so from a state with bit i clear the two
calls return false then true. -/
theorem set_selector_set_reports_prior : ∀ v : Nat, v < 256 → ∀ i : Nat, i < 4 →
    SetSelector.set ⟨v, ()⟩ i = some (v.testBit i, ⟨v ||| (1 <<< i), ()⟩) ∧
    (v ||| (1 <<< i)).testBit i = true ∧
    SetSelector.set ⟨v ||| (1 <<< i), ()⟩ i = some (true, ⟨v ||| (1 <<< i), ()⟩) ∧
    (v.testBit i = false →
      SetSelector.set ⟨v, ()⟩ i = some (false, ⟨v ||| (1 <<< i), ()⟩)) := by
  have k1 : ∀ v : Nat, v < 256 → ∀ i : Nat, i < 4 →
      SetSelector.set ⟨v, ()⟩ i = some (v.testBit i, ⟨v ||| (1 <<< i), ()⟩) := by decide
  have k2 : ∀ v : Nat, v < 256 → ∀ i : Nat, i < 4 →
      (v ||| (1 <<< i)).testBit i = true := by decide
  have k3 : ∀ v : Nat, v < 256 → ∀ i : Nat, i < 4 →
      SetSelector.set ⟨v ||| (1 <<< i), ()⟩ i = some (true, ⟨v ||| (1 <<< i), ()⟩) := by
    decide
  intro v hv i hi
  refine ⟨k1 v hv i hi, k2 v hv i hi, k3 v hv i hi, ?_⟩
  intro hbit
  have h := k1 v hv i hi
  rw [hbit] at h
  exact h

/-- Witness for C8 from the empty selector at index 2: `set` answers false,
then true. -/
theorem set_selector_set_reports_prior_witness :
    SetSelector.set ⟨0, ()⟩ 2 = some ((0 : Nat).testBit 2, ⟨0 ||| (1 <<< 2), ()⟩) ∧
    ((0 : Nat) ||| (1 <<< 2)).testBit 2 = true ∧
    SetSelector.set ⟨0 ||| (1 <<< 2), ()⟩ 2 = some (true, ⟨0 ||| (1 <<< 2), ()⟩) ∧
    ((0 : Nat).testBit 2 = false →
      SetSelector.set ⟨0, ()⟩ 2 = some (false, ⟨0 ||| (1 <<< 2), ()⟩)) :=
  set_selector_set_reports_prior 0 (by decide) 2 (by decide)

/-- Core of the swizzle slot computation, stated on raw bit patterns with
the written slot `a` and written value `c` already reduced below 4. -/
theorem swizzle_key : ∀ s : Nat, s < 256 → ∀ a : Nat, a < 4 → ∀ c : Nat, c < 4 →
    ((s &&& (0xFF ^^^ (3 <<< (a * 2)))) ||| (c <<< (a * 2))) < 256 ∧
    ((((s &&& (0xFF ^^^ (3 <<< (a * 2)))) ||| (c <<< (a * 2))) >>> (a * 2)) &&& 3) = c ∧
    (∀ i : Nat, i < 4 → i ≠ a →
      ((((s &&& (0xFF ^^^ (3 <<< (a * 2)))) ||| (c <<< (a * 2))) >>> (i * 2)) &&& 3) =
        ((s >>> (i * 2)) &&& 3)) := by
  have k1 : ∀ s : Nat, s < 256 → ∀ a : Nat, a < 4 → ∀ c : Nat, c < 4 →
      ((s &&& (0xFF ^^^ (3 <<< (a * 2)))) ||| (c <<< (a * 2))) < 256 := by decide
  have k2 : ∀ s : Nat, s < 256 → ∀ a : Nat, a < 4 → ∀ c : Nat, c < 4 →
      ((((s &&& (0xFF ^^^ (3 <<< (a * 2)))) ||| (c <<< (a * 2))) >>> (a * 2)) &&& 3) = c := by
    decide
  have k3 : ∀ s : Nat, s < 256 → ∀ a : Nat, a < 4 → ∀ c : Nat, c < 4 →
      ∀ i : Nat, i < 4 → i ≠ a →
        ((((s &&& (0xFF ^^^ (3 <<< (a * 2)))) ||| (c <<< (a * 2))) >>> (i * 2)) &&& 3) =
          ((s >>> (i * 2)) &&& 3) := by
    decide
  intro s hs a ha c hc
  exact ⟨k1 s hs a ha c hc, k2 s hs a ha c hc, k3 s hs a ha c hc⟩

/-- The Debug rendering reads back exactly the 2-bit slots: for every state
and position, the decoded character is the letter of that slot's value. -/
theorem swizzle_decode_key : ∀ v : Nat, v < 256 → ∀ i : Nat, i < 4 →
    (SwizzleSelector.decode ⟨v, ()⟩).getD i ' ' =
      elem_name (SwizzleSelector.slot ⟨v, ()⟩ i) := by
  decide

/-- Low bitmask via `&&&` is reduction modulo 4, on u8-sized values. -/
theorem and_three_eq_mod_four : ∀ n : Nat, n < 256 → n &&& 3 = n % 4 := by
  decide

/-- C3: `set(offset, selected)` stores `selected % 4` in the 2-bit slot
numbered `offset % 4` (offsets beyond 3 alias modulo 4), leaves the other
three slots unchanged, keeps the value a u8, and the decoded 4-letter
string's character at position i is the letter for the value of slot i. -/
theorem swizzle_set_and_decode : ∀ s : Nat, s < 256 → ∀ o sel : Nat, o < 256 → sel < 256 →
    (SwizzleSelector.set ⟨s, ()⟩ o sel).val < 256 ∧
    SwizzleSelector.slot (SwizzleSelector.set ⟨s, ()⟩ o sel) (o % 4) = sel % 4 ∧
    (∀ i : Nat, i < 4 → i ≠ o % 4 →
      SwizzleSelector.slot (SwizzleSelector.set ⟨s, ()⟩ o sel) i =
        SwizzleSelector.slot ⟨s, ()⟩ i) ∧
    (∀ i : Nat, i < 4 →
      (SwizzleSelector.decode (SwizzleSelector.set ⟨s, ()⟩ o sel)).getD i ' ' =
        elem_name (SwizzleSelector.slot (SwizzleSelector.set ⟨s, ()⟩ o sel) i)) := by
  intro s hs o sel ho hsel
  have h1 : o &&& 3 = o % 4 := and_three_eq_mod_four o ho
  have h2 : sel &&& 3 = sel % 4 := and_three_eq_mod_four sel hsel
  have ha : o % 4 < 4 := Nat.mod_lt _ (by omega)
  have hc : sel % 4 < 4 := Nat.mod_lt _ (by omega)
  have hset : SwizzleSelector.set ⟨s, ()⟩ o sel =
      ⟨(s &&& (0xFF ^^^ (3 <<< ((o % 4) * 2)))) ||| ((sel % 4) <<< ((o % 4) * 2)), ()⟩ := by
    simp only [SwizzleSelector.set, h1, h2]
  obtain ⟨k1, k2, k3⟩ := swizzle_key s hs (o % 4) ha (sel % 4) hc
  refine ⟨?_, ?_, ?_, ?_⟩
  · rw [hset]
    exact k1
  · rw [hset]
    exact k2
  · intro i hi hne
    rw [hset]
    exact k3 i hi hne
  · intro i hi
    rw [hset]
    exact swizzle_decode_key _ k1 i hi

/-- Witness for C3: writing value 7 at offset 6 into the identity pattern
0b11100100 aliases to slot 2 and stores 3 there. -/
theorem swizzle_set_and_decode_witness :
    (SwizzleSelector.set ⟨0b11100100, ()⟩ 6 7).val < 256 ∧
    SwizzleSelector.slot (SwizzleSelector.set ⟨0b11100100, ()⟩ 6 7) (6 % 4) = 7 % 4 ∧
    (∀ i : Nat, i < 4 → i ≠ 6 % 4 →
      SwizzleSelector.slot (SwizzleSelector.set ⟨0b11100100, ()⟩ 6 7) i =
        SwizzleSelector.slot ⟨0b11100100, ()⟩ i) ∧
    (∀ i : Nat, i < 4 →
      (SwizzleSelector.decode (SwizzleSelector.set ⟨0b11100100, ()⟩ 6 7)).getD i ' ' =
        elem_name (SwizzleSelector.slot (SwizzleSelector.set ⟨0b11100100, ()⟩ 6 7) i)) :=
  swizzle_set_and_decode 0b11100100 (by decide) 6 7 (by decide) (by decide)

theorem utf8Len_cons (c : Char) (l : List Char) :
    utf8Len (c :: l) = c.utf8Size + utf8Len l := by
  simp [utf8Len]

theorem utf8Len_append (a b : List Char) :
    utf8Len (a ++ b) = utf8Len a + utf8Len b := by
  simp [utf8Len]

theorem utf8Len_dropWhile_le (p : Char → Bool) (l : List Char) :
    utf8Len (l.dropWhile p) ≤ utf8Len l := by
  induction l with
  | nil => simp [List.dropWhile]
  | cons c l ih =>
    rw [List.dropWhile_cons]
    split
    · calc utf8Len (l.dropWhile p) ≤ utf8Len l := ih
        _ ≤ utf8Len (c :: l) := by rw [utf8Len_cons]; omega
    · exact Nat.le_refl _

theorem length_dropWhile_le (p : Char → Bool) (l : List Char) :
    (l.dropWhile p).length ≤ l.length := by
  induction l with
  | nil => simp [List.dropWhile]
  | cons c l ih =>
    rw [List.dropWhile_cons]
    split
    · exact Nat.le_trans ih (by simp)
    · exact Nat.le_refl _

theorem utf8Len_takeWhile_add_dropWhile (p : Char → Bool) (l : List Char) :
    utf8Len (l.takeWhile p) + utf8Len (l.dropWhile p) = utf8Len l := by
  conv_rhs => rw [← List.takeWhile_append_dropWhile p l]
  rw [utf8Len_append]

theorem dropWhile_const_false (l : List Char) :
    l.dropWhile (fun _ => false) = l := by
  cases l <;> simp [List.dropWhile]

set_option maxHeartbeats 1000000 in
/-- Every non-panicking arm of the `Reader::next` match yields a non-EoF
kind, and leaves as remaining characters a suffix of the input computed by
dropping a prefix (possibly empty) of the characters after the first. -/
theorem classify_shape (c : Char) (rest : List Char) (k : TokenKind) (l : List Char)
    (h : classify c rest = some (k, l)) :
    k ≠ TokenKind.EoF ∧ ∃ p : Char → Bool, l = rest.dropWhile p := by
  unfold classify comment eat_whitespace ident number eat_while at h
  split_ifs at h <;>
    first
      | exact Option.noConfusion h
      | (simp only [Option.some.injEq, Prod.mk.injEq] at h
         obtain ⟨hk, hl⟩ := h
         subst hk
         subst hl
         first
           | exact ⟨by decide, _, rfl⟩
           | exact ⟨by decide, fun _ => false, (dropWhile_const_false rest).symm⟩)

/-- At end of input, `Reader::next` returns the EoF token of length 0 and
leaves the reader unchanged. -/
theorem next_empty (r : Reader) (h : r.chars = []) :
    r.next = some (⟨TokenKind.EoF, 0⟩, r) := by
  unfold Reader.next
  rw [h]

/-- Conversely, an EoF token is returned only at end of input, unchanged
state, with length 0. -/
theorem next_eof_spec (r : Reader) (tok : Token) (rr : Reader)
    (h : r.next = some (tok, rr)) (hk : tok.kind = TokenKind.EoF) :
    r.chars = [] ∧ rr = r ∧ tok = ⟨TokenKind.EoF, 0⟩ := by
  cases hc : r.chars with
  | nil =>
    rw [next_empty r hc] at h
    simp only [Option.some.injEq, Prod.mk.injEq] at h
    exact ⟨rfl, h.2.symm, h.1.symm⟩
  | cons c rest =>
    cases hcl : classify c rest with
    | none =>
      simp only [Reader.next, hc, hcl] at h
      exact Option.noConfusion h
    | some kl =>
      obtain ⟨k, l⟩ := kl
      have hne := (classify_shape c rest k l hcl).1
      simp only [Reader.next, hc, hcl, Option.some.injEq, Prod.mk.injEq] at h
      obtain ⟨ht, hr⟩ := h
      rw [← ht] at hk
      exact absurd hk hne

/-- One non-EoF step of `Reader::next`: the length accounting invariant is
preserved, at least one character is consumed, the token length is at
least 1, and it is exactly the number of bytes consumed. -/
theorem next_spec (r : Reader) (hwf : r.len_at_start = utf8Len r.chars)
    (tok : Token) (rr : Reader) (h : r.next = some (tok, rr))
    (hk : tok.kind ≠ TokenKind.EoF) :
    rr.len_at_start = utf8Len rr.chars ∧ rr.chars.length < r.chars.length ∧
    1 ≤ tok.len ∧ tok.len + utf8Len rr.chars = utf8Len r.chars := by
  cases hc : r.chars with
  | nil =>
    rw [next_empty r hc] at h
    simp only [Option.some.injEq, Prod.mk.injEq] at h
    rw [← h.1] at hk
    exact absurd rfl hk
  | cons c rest =>
    cases hcl : classify c rest with
    | none =>
      simp only [Reader.next, hc, hcl] at h
      exact Option.noConfusion h
    | some kl =>
      obtain ⟨k, l⟩ := kl
      obtain ⟨-, p, hp⟩ := classify_shape c rest k l hcl
      simp only [Reader.next, hc, hcl, Option.some.injEq, Prod.mk.injEq] at h
      obtain ⟨ht, hr⟩ := h
      subst ht
      subst hr
      have hlen : utf8Len l ≤ utf8Len rest := by
        rw [hp]; exact utf8Len_dropWhile_le p rest
      have hll : l.length ≤ rest.length := by
        rw [hp]; exact length_dropWhile_le p rest
      have hsize : 1 ≤ c.utf8Size := Char.utf8Size_pos c
      rw [hwf, hc] at *
      refine ⟨rfl, by simp; omega, ?_, ?_⟩ <;>
        simp only [utf8Len_cons] <;> omega

/-- C2: once `Reader::next` has returned an EoF token, every subsequent
call returns an EoF token of length 0, forever. -/
theorem eof_stable_forever (r : Reader) (tok : Token) (rr : Reader)
    (h : r.next = some (tok, rr)) (hk : tok.kind = TokenKind.EoF) :
    ∀ n : Nat, runN rr n = some (⟨TokenKind.EoF, 0⟩, rr) := by
  obtain ⟨hnil, hrr, htok⟩ := next_eof_spec r tok rr h hk
  have hrrnil : rr.chars = [] := by rw [hrr]; exact hnil
  intro n
  induction n with
  | zero =>
    simp only [runN]
    exact next_empty rr hrrnil
  | succ n ih =>
    simp only [runN]
    rw [next_empty rr hrrnil]
    exact ih

/-- Witness for C2: lexing the empty source, every one of the next 6 calls
returns EoF of length 0. -/
theorem eof_stable_forever_witness :
    runN (Reader.new []) 5 = some (⟨TokenKind.EoF, 0⟩, Reader.new []) :=
  eof_stable_forever (Reader.new []) ⟨TokenKind.EoF, 0⟩ (Reader.new [])
    (by rfl) (by rfl) 5

/-- The panicking arm is taken exactly when no other arm applies. -/
theorem classify_none_iff (c : Char) (rest : List Char) :
    classify c rest = none ↔
      c ≠ '#' ∧ c ≠ '\n' ∧ rust_is_whitespace c = false ∧ is_ident_start c = false ∧
      is_ascii_digit c = false ∧ c ≠ ',' ∧ c ≠ '.' ∧ c ≠ '[' ∧ c ≠ ']' ∧ c ≠ '+' := by
  unfold classify
  split_ifs <;> simp_all

/-- C5: on a fresh reader, `Reader::next` fails fatally (no token, no
recoverable error) exactly when the input is non-empty and its first
character is none of: hash, newline, a whitespace character, an
identifier-start character, an ASCII digit, comma, dot, the brackets, or
plus; in every other case (including end of input) it returns a token. -/
theorem lexer_fatal_iff_unrecognized : ∀ src : List Char,
    (Reader.new src).next = none ↔
      ∃ c rest, src = c :: rest ∧
        c ≠ '#' ∧ c ≠ '\n' ∧ rust_is_whitespace c = false ∧ is_ident_start c = false ∧
        is_ascii_digit c = false ∧ c ≠ ',' ∧ c ≠ '.' ∧ c ≠ '[' ∧ c ≠ ']' ∧ c ≠ '+' := by
  intro src
  cases src with
  | nil =>
    constructor
    · intro h
      simp [Reader.new, Reader.next] at h
    · rintro ⟨c, rest, heq, -⟩
      exact List.noConfusion heq
  | cons c rest =>
    have hred : (Reader.new (c :: rest)).next = none ↔ classify c rest = none := by
      cases hcl : classify c rest with
      | none => simp [Reader.new, Reader.next, hcl]
      | some kl =>
        obtain ⟨k, l⟩ := kl
        simp [Reader.new, Reader.next, hcl]
    rw [hred, classify_none_iff]
    constructor
    · intro h
      exact ⟨c, rest, rfl, h⟩
    · rintro ⟨c1, r1, heq, hprops⟩
      injection heq with e1 e2
      subst e1
      exact hprops

/-- C9: the lexer maps "mov r0.xy, r1.xy\n" and " \n " to exactly the
expected token sequences, with the expected kinds and lengths. -/
theorem lex_concrete_sequences :
    lexAll ("mov r0.xy, r1.xy\n".toList) = LexResult.ok
      [⟨TokenKind.Ident, 3⟩, ⟨TokenKind.Whitespace, 1⟩, ⟨TokenKind.Ident, 2⟩,
       ⟨TokenKind.Dot, 1⟩, ⟨TokenKind.Ident, 2⟩, ⟨TokenKind.Comma, 1⟩,
       ⟨TokenKind.Whitespace, 1⟩, ⟨TokenKind.Ident, 2⟩, ⟨TokenKind.Dot, 1⟩,
       ⟨TokenKind.Ident, 2⟩, ⟨TokenKind.Newline, 1⟩, ⟨TokenKind.EoF, 0⟩] ∧
    lexAll (" \n ".toList) = LexResult.ok
      [⟨TokenKind.Whitespace, 1⟩, ⟨TokenKind.Newline, 1⟩,
       ⟨TokenKind.Whitespace, 1⟩, ⟨TokenKind.EoF, 0⟩] := by
  exact ⟨by decide, by decide⟩

/-- Lexing with fuel exceeding the number of remaining characters never
runs out of fuel, and when it succeeds, the tokens before the final EoF
are all non-EoF of length at least 1 and their lengths sum to the byte
length of the remaining input. -/
theorem lexGo_spec : ∀ (fuel : Nat) (r : Reader),
    r.len_at_start = utf8Len r.chars → r.chars.length < fuel →
    lexGo fuel r ≠ LexResult.outOfFuel ∧
    (∀ ts, lexGo fuel r = LexResult.ok ts →
      ∃ hd, ts = hd ++ [⟨TokenKind.EoF, 0⟩] ∧
        (∀ t ∈ hd, t.kind ≠ TokenKind.EoF ∧ 1 ≤ t.len) ∧
        (hd.map Token.len).sum = utf8Len r.chars) := by
  intro fuel
  induction fuel with
  | zero =>
    intro r _ hlt
    exact absurd hlt (Nat.not_lt_zero _)
  | succ fuel ih =>
    intro r hwf hlt
    cases hnext : r.next with
    | none =>
      constructor
      · simp [lexGo, hnext]
      · intro ts hts
        simp [lexGo, hnext] at hts
    | some tr =>
      obtain ⟨tok, rr⟩ := tr
      by_cases hk : tok.kind = TokenKind.EoF
      · obtain ⟨hnil, hrreq, htok⟩ := next_eof_spec r tok rr hnext hk
        constructor
        · simp [lexGo, hnext, hk]
        · intro ts hts
          simp only [lexGo, hnext, if_pos hk, LexResult.ok.injEq] at hts
          refine ⟨[], ?_, by simp, ?_⟩
          · rw [← hts, htok]
            rfl
          · rw [hnil]
            rfl
      · obtain ⟨hwf2, hlen2, hlen1, hsum⟩ := next_spec r hwf tok rr hnext hk
        obtain ⟨hnf, hok⟩ := ih rr hwf2 (by omega)
        constructor
        · intro habs
          simp only [lexGo, hnext, if_neg hk] at habs
          cases hres : lexGo fuel rr with
          | ok ts => rw [hres] at habs; exact LexResult.noConfusion habs
          | fatal => rw [hres] at habs; exact LexResult.noConfusion habs
          | outOfFuel => exact hnf hres
        · intro ts hts
          simp only [lexGo, hnext, if_neg hk] at hts
          cases hres : lexGo fuel rr with
          | ok ts2 =>
            rw [hres] at hts
            simp only [LexResult.ok.injEq] at hts
            obtain ⟨hd, hhd, hall, hsumr⟩ := hok ts2 hres
            refine ⟨tok :: hd, ?_, ?_, ?_⟩
            · rw [← hts, hhd]
              rfl
            · intro t ht
              rcases List.mem_cons.mp ht with h1 | h2
              · rw [h1]
                exact ⟨hk, hlen1⟩
              · exact hall t h2
            · simp only [List.map_cons, List.sum_cons, hsumr]
              omega
          | fatal => rw [hres] at hts; exact LexResult.noConfusion hts
          | outOfFuel => exact absurd hres hnf

/-- C10: on any source whose lexing never hits the panicking arm, lexing
terminates with an EoF-terminated token list in which every token before
the EoF has length at least 1, and those lengths sum to the byte length of
the source: the tokens tile the source with no gap and no overlap. -/
theorem lexer_tokens_tile_source (src : List Char) (h : lexAll src ≠ LexResult.fatal) :
    ∃ hd, lexAll src = LexResult.ok (hd ++ [⟨TokenKind.EoF, 0⟩]) ∧
      (∀ t ∈ hd, t.kind ≠ TokenKind.EoF ∧ 1 ≤ t.len) ∧
      (hd.map Token.len).sum = utf8Len src := by
  unfold lexAll at h ⊢
  obtain ⟨hnf, hok⟩ := lexGo_spec (src.length + 1) (Reader.new src) rfl (Nat.lt_succ_self _)
  cases hres : lexGo (src.length + 1) (Reader.new src) with
  | ok ts =>
    obtain ⟨hd, hhd, hall, hsum⟩ := hok ts hres
    subst hhd
    exact ⟨hd, rfl, hall, hsum⟩
  | fatal => exact absurd hres h
  | outOfFuel => exact absurd hres hnf

/-- Witness for C10 on the source "a b": lexing does not panic, so the
token lengths tile the 3 bytes. -/
theorem lexer_tokens_tile_source_witness :
    lexAll ("a b".toList) ≠ LexResult.fatal ∧
    ∃ hd, lexAll ("a b".toList) = LexResult.ok (hd ++ [⟨TokenKind.EoF, 0⟩]) ∧
      (∀ t ∈ hd, t.kind ≠ TokenKind.EoF ∧ 1 ≤ t.len) ∧
      (hd.map Token.len).sum = utf8Len ("a b".toList) :=
  ⟨by decide, lexer_tokens_tile_source ("a b".toList) (by decide)⟩

/-- Counterexample to C1 as stated: U+00A0 (no-break space) is a single
non-ASCII whitespace character, so exactly 1 character is consumed, but
the Whitespace token's length is 2 (its UTF-8 byte length), not 1. -/
theorem lexer_len_is_bytes_not_chars :
    (Reader.new [Char.ofNat 0xA0]).next =
      some (⟨TokenKind.Whitespace, 2⟩, { chars := [], len_at_start := 0 }) ∧
    [Char.ofNat 0xA0].length = 1 ∧ (2 : Nat) ≠ 1 := by
  exact ⟨by decide, rfl, by omega⟩

theorem takeWhile_const_false (l : List Char) :
    l.takeWhile (fun _ => false) = [] := by
  cases l <;> simp [List.takeWhile]

/-- One successful `Reader::next` step on a fresh reader, written with the
consumed span split off by `takeWhile`/`dropWhile`: the token length is
the byte length of the consumed characters. -/
theorem next_new_classified (c : Char) (rest : List Char) (k : TokenKind) (p : Char → Bool)
    (hcl : classify c rest = some (k, rest.dropWhile p)) :
    (Reader.new (c :: rest)).next =
      some (⟨k, utf8Len (c :: rest.takeWhile p)⟩, Reader.new (rest.dropWhile p)) := by
  have hsplit := utf8Len_takeWhile_add_dropWhile p rest
  simp only [Reader.new, Reader.next, hcl]
  simp only [Option.some.injEq, Prod.mk.injEq, Token.mk.injEq, Reader.mk.injEq,
    utf8Len_cons, true_and, and_true, eq_self_iff_true]
  omega

/-- The single-character arms: one character consumed, token length is that
character's byte length. -/
theorem next_new_single (c : Char) (rest : List Char) (k : TokenKind)
    (hcl : classify c rest = some (k, rest)) :
    (Reader.new (c :: rest)).next = some (⟨k, c.utf8Size⟩, Reader.new rest) := by
  have h := next_new_classified c rest k (fun _ => false)
    (by rw [dropWhile_const_false]; exact hcl)
  rw [dropWhile_const_false, takeWhile_const_false] at h
  simpa [utf8Len_cons, utf8Len] using h

/-- C1 amended: for every character class, feeding an input beginning with
one maximal span of that class makes `next` return exactly one token of
the expected kind whose length equals the number of BYTES consumed (the
UTF-8 length of the consumed span), the maximal span being computed by the
class's extension rule; at end of input, EoF of length 0. -/
theorem lexer_class_token_byte_len (rest : List Char) :
    (Reader.new ('#' :: rest)).next =
      some (⟨TokenKind.Comment, utf8Len ('#' :: rest.takeWhile (fun c => c != '\n'))⟩,
            Reader.new (rest.dropWhile (fun c => c != '\n'))) ∧
    (Reader.new ('\n' :: rest)).next = some (⟨TokenKind.Newline, 1⟩, Reader.new rest) ∧
    (∀ c : Char, rust_is_whitespace c = true → c ≠ '\n' →
      (Reader.new (c :: rest)).next =
        some (⟨TokenKind.Whitespace,
               utf8Len (c :: rest.takeWhile (fun d => d != '\n' && rust_is_whitespace d))⟩,
              Reader.new (rest.dropWhile (fun d => d != '\n' && rust_is_whitespace d)))) ∧
    (∀ c : Char, is_ident_start c = true →
      (Reader.new (c :: rest)).next =
        some (⟨TokenKind.Ident, utf8Len (c :: rest.takeWhile is_ident_continue)⟩,
              Reader.new (rest.dropWhile is_ident_continue))) ∧
    (∀ c : Char, is_ascii_digit c = true →
      (Reader.new (c :: rest)).next =
        some (⟨TokenKind.Number, utf8Len (c :: rest.takeWhile is_ascii_digit)⟩,
              Reader.new (rest.dropWhile is_ascii_digit))) ∧
    (Reader.new (',' :: rest)).next = some (⟨TokenKind.Comma, 1⟩, Reader.new rest) ∧
    (Reader.new ('.' :: rest)).next = some (⟨TokenKind.Dot, 1⟩, Reader.new rest) ∧
    (Reader.new ('[' :: rest)).next = some (⟨TokenKind.LeftBracket, 1⟩, Reader.new rest) ∧
    (Reader.new (']' :: rest)).next = some (⟨TokenKind.RightBracket, 1⟩, Reader.new rest) ∧
    (Reader.new ('+' :: rest)).next = some (⟨TokenKind.Plus, 1⟩, Reader.new rest) ∧
    (Reader.new []).next = some (⟨TokenKind.EoF, 0⟩, Reader.new []) := by
  refine ⟨?_, ?_, ?_, ?_, ?_, ?_, ?_, ?_, ?_, ?_, ?_⟩
  · exact next_new_classified '#' rest TokenKind.Comment (fun c => c != '\n') rfl
  · exact next_new_single '\n' rest TokenKind.Newline rfl
  · intro c hw hn
    have h1 : ¬(c = '#') := by rintro rfl; exact absurd hw (by decide)
    have hcl : classify c rest =
        some (TokenKind.Whitespace,
          rest.dropWhile (fun d => d != '\n' && rust_is_whitespace d)) := by
      unfold classify eat_whitespace eat_while
      rw [if_neg h1, if_neg hn, if_pos hw]
    exact next_new_classified c rest TokenKind.Whitespace _ hcl
  · intro c hi
    have h1 : ¬(c = '#') := by rintro rfl; exact absurd hi (by decide)
    have h2 : ¬(c = '\n') := by rintro rfl; exact absurd hi (by decide)
    have h3 : rust_is_whitespace c = false := by
      rw [← Bool.not_eq_true]
      simp only [is_ident_start, Bool.or_eq_true, Bool.and_eq_true, decide_eq_true_eq] at hi
      simp only [rust_is_whitespace, Bool.or_eq_true, Bool.and_eq_true, decide_eq_true_eq,
        not_or]
      omega
    have h3x : ¬(rust_is_whitespace c = true) := by rw [h3]; exact Bool.false_ne_true
    have hcl : classify c rest =
        some (TokenKind.Ident, rest.dropWhile is_ident_continue) := by
      unfold classify ident eat_while
      rw [if_neg h1, if_neg h2, if_neg h3x, if_pos hi]
    exact next_new_classified c rest TokenKind.Ident _ hcl
  · intro c hdg
    have h1 : ¬(c = '#') := by rintro rfl; exact absurd hdg (by decide)
    have h2 : ¬(c = '\n') := by rintro rfl; exact absurd hdg (by decide)
    have hdn : 0x30 ≤ c.toNat ∧ c.toNat ≤ 0x39 := by
      simpa only [is_ascii_digit, Bool.and_eq_true, decide_eq_true_eq] using hdg
    have h3 : rust_is_whitespace c = false := by
      rw [← Bool.not_eq_true]
      simp only [rust_is_whitespace, Bool.or_eq_true, Bool.and_eq_true, decide_eq_true_eq,
        not_or]
      omega
    have h4 : is_ident_start c = false := by
      rw [← Bool.not_eq_true]
      simp only [is_ident_start, Bool.or_eq_true, Bool.and_eq_true, decide_eq_true_eq,
        not_or]
      omega
    have h3x : ¬(rust_is_whitespace c = true) := by rw [h3]; exact Bool.false_ne_true
    have h4x : ¬(is_ident_start c = true) := by rw [h4]; exact Bool.false_ne_true
    have hcl : classify c rest =
        some (TokenKind.Number, rest.dropWhile is_ascii_digit) := by
      unfold classify number eat_while
      rw [if_neg h1, if_neg h2, if_neg h3x, if_neg h4x, if_pos hdg]
    exact next_new_classified c rest TokenKind.Number _ hcl
  · exact next_new_single ',' rest TokenKind.Comma rfl
  · exact next_new_single '.' rest TokenKind.Dot rfl
  · exact next_new_single '[' rest TokenKind.LeftBracket rfl
  · exact next_new_single ']' rest TokenKind.RightBracket rfl
  · exact next_new_single '+' rest TokenKind.Plus rfl
  · rfl

/-- Witness for the amended C1, instantiating the whitespace clause at the
non-ASCII whitespace character U+00A0 with empty tail: the token is
Whitespace and its length is the byte length of the consumed span. -/
theorem lexer_class_token_byte_len_witness :
    rust_is_whitespace (Char.ofNat 0xA0) = true ∧ Char.ofNat 0xA0 ≠ '\n' ∧
    (Reader.new [Char.ofNat 0xA0]).next =
      some (⟨TokenKind.Whitespace,
             utf8Len (Char.ofNat 0xA0 ::
               List.takeWhile (fun d => d != '\n' && rust_is_whitespace d) [])⟩,
            Reader.new (List.dropWhile (fun d => d != '\n' && rust_is_whitespace d) [])) :=
  ⟨by decide, by decide,
    (lexer_class_token_byte_len []).2.2.1 (Char.ofNat 0xA0) (by decide) (by decide)⟩

end Wavevm
